import Mathlib

/-!
Verification development for the SQLite-backed acoustic-fingerprint store
(`dejavu/database_sqlite.py`).

The Python module keeps two tables:

* `songs (song_id INTEGER PRIMARY KEY AUTOINCREMENT, song_name TEXT NOT NULL,
  fingerprinted INTEGER DEFAULT 0, file_sha1 BLOB NOT NULL UNIQUE)`
* `fingerprints (hash BLOB NOT NULL, song_id INTEGER NOT NULL, offset INTEGER
  NOT NULL, UNIQUE (hash, song_id, offset), FOREIGN KEY (song_id) REFERENCES
  songs(song_id) ON DELETE CASCADE)`

with `PRAGMA foreign_keys = ON` set on the connection.

This file embeds the module shallowly:

* blobs are `List Nat` (one entry per byte);
* Python hex strings are Lean `String`s; `bytes.fromhex` is `hexToBytes`,
  `bytes.hex().upper()` (and SQLite's uppercase `hex()`) is `bytesHexUpper`,
  `str.upper()` is `strUpper`;
* the database is a `DBState`: the two tables as lists of rows plus the
  AUTOINCREMENT counter; SQL statements become pure functions on `DBState`,
  failing statements return `Except.error`;
* the Python dict built by `return_matches` is an association list with
  insertion-order keys and last-write-wins values (`dictInsert`/`dictGet`);
* `grouper` (the `zip_longest` chunking helper) is `chunksOf` followed by the
  `if v` truthiness filter, which in the model drops empty strings.
-/

namespace Dejavu

/-- Value of a single hexadecimal digit character, both cases accepted, as
in Python `bytes.fromhex`, by ASCII range: codes 48-57 are `0`-`9`, 97-102
are `a`-`f`, 65-70 are `A`-`F`. -/
def hexDigitVal (c : Char) : Option Nat :=
  if 48 ≤ c.toNat ∧ c.toNat ≤ 57 then some (c.toNat - 48)
  else if 97 ≤ c.toNat ∧ c.toNat ≤ 102 then some (c.toNat - 87)
  else if 65 ≤ c.toNat ∧ c.toNat ≤ 70 then some (c.toNat - 55)
  else none

/-- Decode a list of hex-digit characters, two per byte; `none` on odd length
or on a non-hex character (Python `bytes.fromhex` raises `ValueError`). -/
def hexCharsToBytes : List Char → Option (List Nat)
  | [] => some []
  | [_] => none
  | c1 :: c2 :: rest =>
    match hexDigitVal c1, hexDigitVal c2, hexCharsToBytes rest with
    | some hi, some lo, some bs => some ((16 * hi + lo) :: bs)
    | _, _, _ => none

/-- Python `bytes.fromhex` on a whitespace-free hex string. -/
def hexToBytes (s : String) : Option (List Nat) :=
  hexCharsToBytes s.data

/-- Uppercase hex digit character for a value below 16. -/
def hexDigitCharUpper (n : Nat) : Char :=
  if n < 10 then Char.ofNat (48 + n) else Char.ofNat (55 + n)

/-- Two uppercase hex digits of one byte. -/
def byteHexUpper (b : Nat) : List Char :=
  [hexDigitCharUpper (b / 16), hexDigitCharUpper (b % 16)]

/-- Uppercase hex rendering of a blob: models both Python
`blob.hex().upper()` and SQLite's `hex(blob)` (which is uppercase). -/
def bytesHexUpper (bs : List Nat) : String :=
  ⟨bs.flatMap byteHexUpper⟩

/-- Python `str.upper()` restricted to ASCII, which is all the module
applies it to (hex strings). -/
def strUpper (s : String) : String :=
  ⟨s.data.map Char.toUpper⟩

/-- Insert into a Python-dict association list: overwrite the value at an
existing key in place, else append the new entry. -/
def dictInsert : List (String × Int) → String → Int → List (String × Int)
  | [], k, v => [(k, v)]
  | p :: m, k, v => if p.1 = k then (k, v) :: m else p :: dictInsert m k v

/-- Dict lookup (`mapper[h]`). -/
def dictGet (m : List (String × Int)) (k : String) : Option Int :=
  (m.find? (fun p => p.1 == k)).map (·.2)

/-- The dict comprehension `{h.upper(): o for h, o in hashes}`. -/
def buildMapper (hashes : List (String × Int)) : List (String × Int) :=
  hashes.foldl (fun m p => dictInsert m (strUpper p.1) p.2) []

/-- Offset of the last pair in the batch whose upper-cased hash is `k`
(the value a Python dict comprehension retains for key `k`). -/
def lastOffset (hashes : List (String × Int)) (k : String) : Option Int :=
  (hashes.reverse.find? (fun p => strUpper p.1 == k)).map (·.2)

/-- Map a fallible function over a list, failing if any element fails
(a Python list comprehension / generator whose body may raise). -/
def omap (f : α → Option β) : List α → Option (List β)
  | [] => some []
  | x :: xs =>
    match f x, omap f xs with
    | some y, some ys => some (y :: ys)
    | _, _ => none

/-- Fuel-driven worker for `chunksOf`; the fuel is an upper bound on the
list length, so the `0, _ :: _` case is unreachable. -/
def chunksOfFuel (n : Nat) : Nat → List α → List (List α)
  | _, [] => []
  | 0, l => [l]
  | fuel + 1, x :: xs => (x :: xs.take (n - 1)) :: chunksOfFuel n fuel (xs.drop (n - 1))

/-- Chunk a list into pieces of `n` consecutive elements (the
`zip_longest`-over-`n`-copies-of-one-iterator idiom, without the `None`
padding, which the model never needs to materialize). -/
def chunksOf (n : Nat) (l : List α) : List (List α) :=
  chunksOfFuel n l.length l

/-- Source `grouper(iterable, n)`: chunks of `n`, each filtered by Python
truthiness (`if v`), which drops the `None` padding of the final chunk and
also drops empty strings. -/
def grouper (l : List String) (n : Nat) : List (List String) :=
  (chunksOf n l).map (fun c => c.filter (fun s => !(s == "")))

/-- Row of the `songs` table. -/
structure Song where
  song_id : Nat
  song_name : String
  fingerprinted : Bool
  file_sha1 : List Nat
deriving DecidableEq, Repr

/-- Row of the `fingerprints` table. -/
structure Fingerprint where
  hash : List Nat
  song_id : Nat
  offset : Int
deriving DecidableEq, Repr

/-- Database state: both tables in row order, plus the AUTOINCREMENT
counter for `songs.song_id` (SQLite never reuses it). -/
structure DBState where
  songs : List Song
  fingerprints : List Fingerprint
  next_id : Nat
deriving DecidableEq, Repr

/-- Source `setup`: `CREATE TABLE IF NOT EXISTS` for both tables (the model's
state always has both tables, and the statement never fails), then
`DELETE_UNFINGERPRINTED`, which removes every song with `fingerprinted = 0`;
with `PRAGMA foreign_keys = ON` (set in `__init__`) the declared
`ON DELETE CASCADE` also removes those songs' fingerprints. -/
def setup (db : DBState) : DBState :=
  { db with
    songs := db.songs.filter (fun s => s.fingerprinted)
    fingerprints := db.fingerprints.filter
      (fun f => !(db.songs.any (fun s => !s.fingerprinted && s.song_id == f.song_id))) }

/-- Source `insert_song`: decode `file_hash` with `bytes.fromhex`, then
`INSERT INTO songs (song_name, file_sha1) VALUES (?, ?)`.  The
`file_sha1 BLOB NOT NULL UNIQUE` constraint makes the insert fail when the
blob is already present; otherwise the row is appended with the fresh
AUTOINCREMENT id, which `cur.lastrowid` returns. -/
def insert_song (db : DBState) (songname : String) (file_hash : String) :
    Except String (DBState × Nat) :=
  match hexToBytes file_hash with
  | none => Except.error "ValueError: non-hexadecimal number found in fromhex() arg"
  | some blob =>
    if ∃ s ∈ db.songs, s.file_sha1 = blob then
      Except.error "UNIQUE constraint failed: songs.file_sha1"
    else
      Except.ok
        ({ db with
            songs := db.songs ++ [⟨db.next_id, songname, false, blob⟩]
            next_id := db.next_id + 1 },
          db.next_id)

/-- One execution of `INSERT_FINGERPRINT` (`INSERT OR IGNORE INTO
fingerprints ...`) on an already-decoded row.  With `PRAGMA foreign_keys =
ON`, a `song_id` that matches no song raises a foreign-key error —
`OR IGNORE` does not cover foreign-key violations.  A row that collides
with the `UNIQUE (hash, song_id, offset)` constraint is silently
skipped. -/
def insertRow (db : DBState) (sid : Nat) (r : List Nat × Int) :
    Except String DBState :=
  if ¬ ∃ s ∈ db.songs, s.song_id = sid then
    Except.error "FOREIGN KEY constraint failed"
  else if (⟨r.1, sid, r.2⟩ : Fingerprint) ∈ db.fingerprints then
    Except.ok db
  else
    Except.ok { db with fingerprints := db.fingerprints ++ [⟨r.1, sid, r.2⟩] }

/-- Source `insert`: decode the hash and execute one `INSERT_FINGERPRINT`. -/
def insert (db : DBState) (hash : String) (sid : Nat) (offset : Int) :
    Except String DBState :=
  match hexToBytes hash with
  | none => Except.error "ValueError: non-hexadecimal number found in fromhex() arg"
  | some blob => insertRow db sid (blob, offset)

/-- The `executemany` loop: one `INSERT_FINGERPRINT` per decoded row,
stopping at the first error. -/
def insertFold (db : DBState) (sid : Nat) (rows : List (List Nat × Int)) :
    Except String DBState :=
  rows.foldl (fun acc r => acc.bind (fun d => insertRow d sid r)) (Except.ok db)

/-- Source `insert_hashes`: first the list comprehension decodes every hash
(raising `ValueError` before anything is written), then `executemany` runs
`INSERT_FINGERPRINT` once per row, stopping at the first error. -/
def insert_hashes (db : DBState) (sid : Nat) (hashes : List (String × Int)) :
    Except String DBState :=
  match omap (fun p => (hexToBytes p.1).map (fun b => (b, p.2))) hashes with
  | none => Except.error "ValueError: non-hexadecimal number found in fromhex() arg"
  | some rows => insertFold db sid rows

/-- Source `set_song_fingerprinted`: `UPDATE songs SET fingerprinted = 1
WHERE song_id = ?`. -/
def set_song_fingerprinted (db : DBState) (sid : Nat) : DBState :=
  { db with
    songs := db.songs.map
      (fun s => if s.song_id = sid then { s with fingerprinted := true } else s) }

/-- Source `get_song_by_id`: `SELECT song_name, hex(file_sha1) FROM songs
WHERE song_id = ?` with `fetchone` (first matching row in table order);
SQLite `hex()` renders the blob in uppercase. -/
def get_song_by_id (db : DBState) (sid : Nat) : Option (String × String) :=
  (db.songs.find? (fun s => s.song_id == sid)).map
    (fun s => (s.song_name, bytesHexUpper s.file_sha1))

/-- Modelled from the spec: the schema declares `FOREIGN KEY (song_id) ...
ON DELETE CASCADE` and `__init__` enables `PRAGMA foreign_keys = ON`, but
the module under `src/` exposes no operation that deletes a recording.
Deleting a recording row (`DELETE FROM songs WHERE song_id = ?`) under the
declared cascade removes the song and every fingerprint referencing it. -/
def delete_recording (db : DBState) (sid : Nat) : DBState :=
  { db with
    songs := db.songs.filter (fun s => !(s.song_id == sid))
    fingerprints := db.fingerprints.filter (fun f => !(f.song_id == sid)) }

/-- One execution of `SELECT_MULTIPLE`: every fingerprint row whose hash
blob is in the parameter list, in table order (the engine's row order is
unspecified; the model fixes insertion order). -/
def selectMultiple (db : DBState) (blobs : List (List Nat)) : List Fingerprint :=
  db.fingerprints.filter (fun f => decide (f.hash ∈ blobs))

/-- One yielded element of `return_matches`:
`(sid, offset - mapper[h.hex().upper()])`; `none` models a `KeyError`. -/
def processRow (mapper : List (String × Int)) (f : Fingerprint) :
    Option (Nat × Int) :=
  (dictGet mapper (bytesHexUpper f.hash)).map (fun q => (f.song_id, f.offset - q))

/-- One loop iteration of `return_matches`: decode the chunk
(`bytes.fromhex(h) for h in chunk`), run `SELECT_MULTIPLE`, and emit one
pair per returned row. -/
def queryChunk (db : DBState) (mapper : List (String × Int))
    (chunk : List String) : Option (List (Nat × Int)) :=
  match omap hexToBytes chunk with
  | none => none
  | some blobs => omap (processRow mapper) (selectMultiple db blobs)

/-- Source `return_matches`: build the dedup dict, chunk its keys with
`grouper(values, 999)`, query each chunk, and emit the concatenation of the
per-chunk results (the generator, materialized). `none` models an exception
while the generator runs. -/
def return_matches (db : DBState) (hashes : List (String × Int)) :
    Option (List (Nat × Int)) :=
  let mapper := buildMapper hashes
  match omap (queryChunk db mapper) (grouper (mapper.map (·.1)) 999) with
  | none => none
  | some rss => some rss.flatten

/-- Modelled from the spec: the unchunked reference for chunking
transparency — the same dedup dict, but all hashes issued in one
`IN (...)` predicate, as if no parameter-count limit existed. -/
def return_matches_unchunked (db : DBState) (hashes : List (String × Int)) :
    Option (List (Nat × Int)) :=
  let mapper := buildMapper hashes
  queryChunk db mapper (mapper.map (·.1))

/-- Well-formedness of a query batch: every hash is a decodable hex string
and, being the rendering of a fixed-size binary fingerprint, nonempty. -/
def ValidBatch (hashes : List (String × Int)) : Prop :=
  ∀ p ∈ hashes, (hexToBytes p.1).isSome ∧ p.1 ≠ ""

instance (hashes : List (String × Int)) : Decidable (ValidBatch hashes) := by
  unfold ValidBatch
  infer_instance

/-- Every fingerprint references an existing song. -/
def noDangling (db : DBState) : Prop :=
  ∀ f ∈ db.fingerprints, ∃ s ∈ db.songs, s.song_id = f.song_id

/-- One fingerprinted recording, id 1, content hash `AA`, with one stored
fingerprint: hash `AA` at offset 10. -/
def exDB : DBState :=
  ⟨[⟨1, "A", true, [170]⟩], [⟨[170], 1, 10⟩], 2⟩

/-- Two recordings: id 1 fingerprinted, id 2 not, each with one
fingerprint. -/
def exDB2 : DBState :=
  ⟨[⟨1, "A", true, [170]⟩, ⟨2, "B", false, [187]⟩],
   [⟨[170], 1, 10⟩, ⟨[204], 2, 7⟩], 3⟩

/-- A recording registered but not yet ingested. -/
def exFresh : DBState :=
  ⟨[⟨1, "A", false, [170]⟩], [], 2⟩

/-- `exFresh` after ingesting hashes `AA` at 10 and `BB` at 20. -/
def exIngested : DBState :=
  ⟨[⟨1, "A", false, [170]⟩], [⟨[170], 1, 10⟩, ⟨[187], 1, 20⟩], 2⟩

/-! ### Theorems -/

theorem char_toNat_ofNat {n : Nat} (h : n.isValidChar) :
    (Char.ofNat n).toNat = n := by
  rw [Char.ofNat, dif_pos h]
  simp [Char.ofNatAux, Char.toNat, UInt32.toNat]

theorem toUpper_idem (c : Char) : c.toUpper.toUpper = c.toUpper := by
  unfold Char.toUpper
  by_cases h : c.toNat ≥ 97 ∧ c.toNat ≤ 122
  · rw [if_pos h]
    have hv : (c.toNat - 32).isValidChar := Or.inl (by omega)
    rw [char_toNat_ofNat hv]
    rw [if_neg (by omega)]
  · rw [if_neg h, if_neg h]

theorem toUpper_eq_self_of_not_lower {c : Char}
    (h : ¬(97 ≤ c.toNat ∧ c.toNat ≤ 122)) : c.toUpper = c := by
  unfold Char.toUpper
  rw [if_neg (by omega)]

theorem toUpper_eq_ofNat_of_lower {c : Char}
    (h : 97 ≤ c.toNat ∧ c.toNat ≤ 122) :
    c.toUpper = Char.ofNat (c.toNat - 32) := by
  unfold Char.toUpper
  rw [if_pos (by omega)]

theorem hexDigitVal_lt_16 {c : Char} {v : Nat} (h : hexDigitVal c = some v) :
    v < 16 := by
  unfold hexDigitVal at h
  by_cases h1 : 48 ≤ c.toNat ∧ c.toNat ≤ 57
  · rw [if_pos h1] at h
    injection h with h
    omega
  · rw [if_neg h1] at h
    by_cases h2 : 97 ≤ c.toNat ∧ c.toNat ≤ 102
    · rw [if_pos h2] at h
      injection h with h
      omega
    · rw [if_neg h2] at h
      by_cases h3 : 65 ≤ c.toNat ∧ c.toNat ≤ 70
      · rw [if_pos h3] at h
        injection h with h
        omega
      · rw [if_neg h3] at h
        exact Option.noConfusion h

theorem hexDigitVal_toUpper {c : Char} {v : Nat} (h : hexDigitVal c = some v) :
    hexDigitVal c.toUpper = some v := by
  by_cases h1 : 48 ≤ c.toNat ∧ c.toNat ≤ 57
  · rw [toUpper_eq_self_of_not_lower (by omega)]
    exact h
  · by_cases h2 : 97 ≤ c.toNat ∧ c.toNat ≤ 102
    · unfold hexDigitVal at h
      rw [if_neg h1, if_pos h2] at h
      injection h with h
      subst h
      have ht : c.toUpper.toNat = c.toNat - 32 := by
        rw [toUpper_eq_ofNat_of_lower (by omega)]
        exact char_toNat_ofNat (Or.inl (by omega))
      unfold hexDigitVal
      rw [ht, if_neg (by omega), if_neg (by omega), if_pos (by omega),
        show c.toNat - 32 - 55 = c.toNat - 87 from by omega]
    · by_cases h3 : 65 ≤ c.toNat ∧ c.toNat ≤ 70
      · rw [toUpper_eq_self_of_not_lower (by omega)]
        exact h
      · unfold hexDigitVal at h
        rw [if_neg h1, if_neg h2, if_neg h3] at h
        exact Option.noConfusion h

theorem hexDigitCharUpper_eq_toUpper {c : Char} {v : Nat}
    (h : hexDigitVal c = some v) : hexDigitCharUpper v = c.toUpper := by
  unfold hexDigitVal at h
  unfold hexDigitCharUpper
  by_cases h1 : 48 ≤ c.toNat ∧ c.toNat ≤ 57
  · rw [if_pos h1] at h
    injection h with h
    subst h
    rw [toUpper_eq_self_of_not_lower (by omega), if_pos (by omega),
      show 48 + (c.toNat - 48) = c.toNat by omega, Char.ofNat_toNat]
  · by_cases h2 : 97 ≤ c.toNat ∧ c.toNat ≤ 102
    · rw [if_neg h1, if_pos h2] at h
      injection h with h
      subst h
      rw [toUpper_eq_ofNat_of_lower (by omega), if_neg (by omega),
        show 55 + (c.toNat - 87) = c.toNat - 32 by omega]
    · by_cases h3 : 65 ≤ c.toNat ∧ c.toNat ≤ 70
      · rw [if_neg h1, if_neg h2, if_pos h3] at h
        injection h with h
        subst h
        rw [toUpper_eq_self_of_not_lower (by omega), if_neg (by omega),
          show 55 + (c.toNat - 55) = c.toNat by omega, Char.ofNat_toNat]
      · rw [if_neg h1, if_neg h2, if_neg h3] at h
        exact Option.noConfusion h

theorem toUpper_toUpper_of_hexDigit {c : Char} {v : Nat}
    (h : hexDigitVal c = some v) : c.toUpper.toUpper = c.toUpper :=
  toUpper_idem c

/-- Decoding is insensitive to upper-casing the input characters. -/
theorem hexCharsToBytes_map_toUpper :
    ∀ {cs : List Char} {bs : List Nat}, hexCharsToBytes cs = some bs →
      hexCharsToBytes (cs.map Char.toUpper) = some bs
  | [], _, h => by simpa [hexCharsToBytes] using h
  | [_], _, h => by simp [hexCharsToBytes] at h
  | c1 :: c2 :: rest, bs, h => by
    unfold hexCharsToBytes at h
    cases h1 : hexDigitVal c1 with
    | none => simp [h1] at h
    | some v1 =>
      cases h2 : hexDigitVal c2 with
      | none => simp [h1, h2] at h
      | some v2 =>
        cases hr : hexCharsToBytes rest with
        | none => simp [h1, h2, hr] at h
        | some tl =>
          simp only [h1, h2, hr] at h
          injection h with h
          subst h
          have ih := hexCharsToBytes_map_toUpper hr
          simp [hexCharsToBytes, List.map_cons, hexDigitVal_toUpper h1,
            hexDigitVal_toUpper h2, ih]

/-- Round trip: re-encoding decoded bytes in uppercase hex gives the
upper-cased input characters. -/
theorem flatMap_byteHexUpper_of_decode :
    ∀ {cs : List Char} {bs : List Nat}, hexCharsToBytes cs = some bs →
      bs.flatMap byteHexUpper = cs.map Char.toUpper
  | [], _, h => by
    simp only [hexCharsToBytes] at h
    injection h with h
    subst h
    rfl
  | [_], _, h => by simp [hexCharsToBytes] at h
  | c1 :: c2 :: rest, bs, h => by
    unfold hexCharsToBytes at h
    cases h1 : hexDigitVal c1 with
    | none => simp [h1] at h
    | some v1 =>
      cases h2 : hexDigitVal c2 with
      | none => simp [h1, h2] at h
      | some v2 =>
        cases hr : hexCharsToBytes rest with
        | none => simp [h1, h2, hr] at h
        | some tl =>
          simp only [h1, h2, hr] at h
          injection h with h
          subst h
          have ih := flatMap_byteHexUpper_of_decode hr
          have e1 : (16 * v1 + v2) / 16 = v1 := by
            have := hexDigitVal_lt_16 h2
            omega
          have e2 : (16 * v1 + v2) % 16 = v2 := by
            have := hexDigitVal_lt_16 h2
            omega
          simp [List.flatMap_cons, byteHexUpper, e1, e2, ih,
            hexDigitCharUpper_eq_toUpper h1, hexDigitCharUpper_eq_toUpper h2]

/-- Every character of a decodable hex string is a hex digit. -/
theorem hexDigit_of_mem_decodable :
    ∀ {cs : List Char} {bs : List Nat}, hexCharsToBytes cs = some bs →
      ∀ c ∈ cs, ∃ v, hexDigitVal c = some v
  | [], _, _ => by simp
  | [_], _, h => by simp [hexCharsToBytes] at h
  | c1 :: c2 :: rest, bs, h => by
    unfold hexCharsToBytes at h
    cases h1 : hexDigitVal c1 with
    | none => simp [h1] at h
    | some v1 =>
      cases h2 : hexDigitVal c2 with
      | none => simp [h1, h2] at h
      | some v2 =>
        cases hr : hexCharsToBytes rest with
        | none => simp [h1, h2, hr] at h
        | some tl =>
          intro c hc
          rcases hc with _ | ⟨_, hc⟩
          · exact ⟨v1, h1⟩
          · rcases hc with _ | ⟨_, hc⟩
            · exact ⟨v2, h2⟩
            · exact hexDigit_of_mem_decodable hr c hc

theorem hexToBytes_strUpper {s : String} {bs : List Nat}
    (h : hexToBytes s = some bs) : hexToBytes (strUpper s) = some bs :=
  hexCharsToBytes_map_toUpper h

theorem bytesHexUpper_of_decode {s : String} {bs : List Nat}
    (h : hexToBytes s = some bs) : bytesHexUpper bs = strUpper s :=
  congrArg String.mk (flatMap_byteHexUpper_of_decode h)

theorem strUpper_idem_of_decodable {s : String} {bs : List Nat}
    (h : hexToBytes s = some bs) : strUpper (strUpper s) = strUpper s := by
  unfold strUpper
  apply congrArg String.mk
  simp only [List.map_map, List.map_inj_left]
  intro c hc
  obtain ⟨v, hv⟩ := hexDigit_of_mem_decodable h c hc
  exact toUpper_toUpper_of_hexDigit hv

theorem strUpper_length (s : String) :
    (strUpper s).data.length = s.data.length := by
  simp [strUpper]

theorem strUpper_ne_empty {s : String} (h : s ≠ "") : strUpper s ≠ "" := by
  intro he
  apply h
  have hdata : s.data.map Char.toUpper = [] := congrArg String.data he
  cases s with
  | mk d =>
    cases d with
    | nil => rfl
    | cons a l => simp at hdata

theorem dictGet_dictInsert_same (m : List (String × Int)) (k : String) (v : Int) :
    dictGet (dictInsert m k v) k = some v := by
  induction m with
  | nil => simp [dictInsert, dictGet]
  | cons p m ih =>
    by_cases hp : p.1 = k
    · simp [dictInsert, hp, dictGet]
    · simp [dictInsert, hp, dictGet, List.find?_cons, hp] at ih ⊢
      simpa [dictGet] using ih

theorem dictGet_dictInsert_other (m : List (String × Int)) {k k' : String}
    (v : Int) (hne : k' ≠ k) :
    dictGet (dictInsert m k v) k' = dictGet m k' := by
  induction m with
  | nil => simp [dictInsert, dictGet, List.find?_cons, Ne.symm hne]
  | cons p m ih =>
    by_cases hp : p.1 = k
    · rw [show dictInsert (p :: m) k v = (k, v) :: m from by simp [dictInsert, hp]]
      unfold dictGet
      rw [List.find?_cons, List.find?_cons]
      have h1 : ((k, v).1 == k') = false := by simp [Ne.symm hne]
      have h2 : (p.1 == k') = false := by rw [hp]; simp [Ne.symm hne]
      simp [h1, h2]
    · rw [show dictInsert (p :: m) k v = p :: dictInsert m k v from by
        simp [dictInsert, hp]]
      unfold dictGet
      rw [List.find?_cons, List.find?_cons]
      cases hbe : (p.1 == k') with
      | true => simp
      | false => simpa [dictGet] using ih

theorem mem_dictInsert {m : List (String × Int)} {k : String} {v : Int}
    {e : String × Int} (h : e ∈ dictInsert m k v) : e ∈ m ∨ e = (k, v) := by
  induction m with
  | nil => simp [dictInsert] at h; simp [h]
  | cons p m ih =>
    by_cases hp : p.1 = k
    · simp [dictInsert, hp] at h
      rcases h with h | h
      · right; simp [h]
      · left; simp [h]
    · simp [dictInsert, hp] at h
      rcases h with h | h
      · left; simp [h]
      · rcases ih h with h' | h'
        · left; simp [h']
        · right; exact h'

theorem keys_dictInsert_subset {m : List (String × Int)} {k k' : String}
    {v : Int} (h : k' ∈ (dictInsert m k v).map (·.1)) :
    k' ∈ m.map (·.1) ∨ k' = k := by
  simp only [List.mem_map] at h
  obtain ⟨e, he, hk⟩ := h
  rcases mem_dictInsert he with h' | h'
  · left; exact List.mem_map.mpr ⟨e, h', hk⟩
  · right; rw [h'] at hk; exact hk.symm

theorem keys_subset_dictInsert {m : List (String × Int)} (k : String) (v : Int)
    {k' : String} (h : k' ∈ m.map (·.1)) :
    k' ∈ (dictInsert m k v).map (·.1) := by
  induction m with
  | nil => simp at h
  | cons p m ih =>
    by_cases hp : p.1 = k
    · rw [show dictInsert (p :: m) k v = (k, v) :: m from by simp [dictInsert, hp]]
      simp only [List.map_cons, List.mem_cons] at h ⊢
      rcases h with h | h
      · left; rw [h, hp]
      · right; exact h
    · rw [show dictInsert (p :: m) k v = p :: dictInsert m k v from by
        simp [dictInsert, hp]]
      simp only [List.map_cons, List.mem_cons] at h ⊢
      rcases h with h | h
      · left; exact h
      · right; exact ih h

theorem self_mem_keys_dictInsert (m : List (String × Int)) (k : String) (v : Int) :
    k ∈ (dictInsert m k v).map (·.1) := by
  induction m with
  | nil => simp [dictInsert]
  | cons p m ih =>
    by_cases hp : p.1 = k
    · simp [dictInsert, hp]
    · simp [dictInsert, hp]
      right
      simpa using ih

theorem nodup_keys_dictInsert {m : List (String × Int)} (k : String) (v : Int)
    (h : (m.map (·.1)).Nodup) : ((dictInsert m k v).map (·.1)).Nodup := by
  induction m with
  | nil => simp [dictInsert]
  | cons p m ih =>
    simp only [List.map_cons, List.nodup_cons] at h
    by_cases hp : p.1 = k
    · simp only [dictInsert, if_pos hp, List.map_cons, List.nodup_cons]
      exact ⟨by rw [← hp]; exact h.1, h.2⟩
    · simp only [dictInsert, if_neg hp, List.map_cons, List.nodup_cons]
      refine ⟨fun hc => ?_, ih h.2⟩
      rcases keys_dictInsert_subset hc with h' | h'
      · exact h.1 h'
      · exact hp h'

theorem mem_buildMapper_aux :
    ∀ (hashes : List (String × Int)) (m : List (String × Int))
      {e : String × Int},
      e ∈ hashes.foldl (fun m p => dictInsert m (strUpper p.1) p.2) m →
      e ∈ m ∨ ∃ p ∈ hashes, e.1 = strUpper p.1
  | [], m, e, h => Or.inl h
  | q :: rest, m, e, h => by
    rcases mem_buildMapper_aux rest (dictInsert m (strUpper q.1) q.2) h with
      h' | ⟨p, hp, he⟩
    · rcases mem_dictInsert h' with h'' | h''
      · exact Or.inl h''
      · exact Or.inr ⟨q, List.mem_cons_self q rest, by rw [h'']⟩
    · exact Or.inr ⟨p, List.mem_cons_of_mem q hp, he⟩

/-- Every mapper key is the upper-cased hash of some pair in the batch. -/
theorem mem_keys_buildMapper {hashes : List (String × Int)} {k : String}
    (h : k ∈ (buildMapper hashes).map (·.1)) :
    ∃ p ∈ hashes, k = strUpper p.1 := by
  simp only [List.mem_map] at h
  obtain ⟨e, he, hk⟩ := h
  rcases mem_buildMapper_aux hashes [] he with h' | ⟨p, hp, he'⟩
  · simp at h'
  · exact ⟨p, hp, by rw [← hk, he']⟩

/-- Mapper keys only grow along the fold. -/
theorem keys_foldl_mono :
    ∀ (hashes : List (String × Int)) (m : List (String × Int)) {k : String},
      k ∈ m.map (·.1) →
      k ∈ (hashes.foldl (fun m q => dictInsert m (strUpper q.1) q.2) m).map (·.1)
  | [], _, _, h => h
  | q :: rest, m, k, h =>
    keys_foldl_mono rest _ (keys_subset_dictInsert (strUpper q.1) q.2 h)

theorem keys_buildMapper_aux :
    ∀ (hashes : List (String × Int)) (m : List (String × Int))
      {p : String × Int}, p ∈ hashes →
      strUpper p.1 ∈ (hashes.foldl (fun m q => dictInsert m (strUpper q.1) q.2) m).map (·.1)
  | [], _, _, hp => by simp at hp
  | q :: rest, m, p, hp => by
    rcases List.mem_cons.mp hp with h | h
    · subst h
      exact keys_foldl_mono rest _ (self_mem_keys_dictInsert m (strUpper p.1) p.2)
    · exact keys_buildMapper_aux rest _ h

/-- Every batch hash appears (upper-cased) among the mapper keys. -/
theorem strUpper_mem_keys_buildMapper {hashes : List (String × Int)}
    {p : String × Int} (hp : p ∈ hashes) :
    strUpper p.1 ∈ (buildMapper hashes).map (·.1) :=
  keys_buildMapper_aux hashes [] hp

theorem nodup_keys_buildMapper_aux :
    ∀ (hashes : List (String × Int)) (m : List (String × Int)),
      (m.map (·.1)).Nodup →
      ((hashes.foldl (fun m q => dictInsert m (strUpper q.1) q.2) m).map (·.1)).Nodup
  | [], _, h => h
  | q :: rest, m, h =>
    nodup_keys_buildMapper_aux rest _ (nodup_keys_dictInsert (strUpper q.1) q.2 h)

/-- Mapper keys are distinct (a dict holds each key once). -/
theorem nodup_keys_buildMapper (hashes : List (String × Int)) :
    ((buildMapper hashes).map (·.1)).Nodup :=
  nodup_keys_buildMapper_aux hashes [] (by simp)

theorem buildMapper_append (hashes : List (String × Int)) (p : String × Int) :
    buildMapper (hashes ++ [p]) =
      dictInsert (buildMapper hashes) (strUpper p.1) p.2 := by
  unfold buildMapper
  rw [List.foldl_append]
  rfl

/-- The dict comprehension keeps, for each key, the offset of the last
occurrence in the batch. -/
theorem dictGet_buildMapper_eq_lastOffset (hashes : List (String × Int))
    (k : String) : dictGet (buildMapper hashes) k = lastOffset hashes k := by
  induction hashes using List.reverseRecOn with
  | nil => rfl
  | append_singleton rest p ih =>
    rw [buildMapper_append]
    unfold lastOffset
    rw [List.reverse_append]
    simp only [List.reverse_cons, List.reverse_nil, List.nil_append,
      List.singleton_append, List.find?_cons]
    by_cases hk : strUpper p.1 = k
    · rw [hk, dictGet_dictInsert_same]
      simp
    · rw [dictGet_dictInsert_other _ _ (fun he => hk he.symm)]
      have : (strUpper p.1 == k) = false := by simp [hk]
      rw [this, ih]
      rfl

/-- Lookup succeeds exactly on mapper keys. -/
theorem dictGet_isSome_iff (m : List (String × Int)) (k : String) :
    (dictGet m k).isSome ↔ k ∈ m.map (·.1) := by
  induction m with
  | nil => simp [dictGet]
  | cons p m ih =>
    unfold dictGet at ih ⊢
    rw [List.find?_cons]
    by_cases hp : p.1 = k
    · simp [hp]
    · have : (p.1 == k) = false := by simp [hp]
      simp only [this, List.map_cons, List.mem_cons]
      rw [ih]
      constructor
      · exact Or.inr
      · rintro (h | h)
        · exact absurd h.symm hp
        · exact h

theorem omap_isSome {f : α → Option β} :
    ∀ {l : List α}, (∀ x ∈ l, (f x).isSome) → (omap f l).isSome
  | [], _ => by simp [omap]
  | x :: xs, h => by
    obtain ⟨y, hy⟩ := Option.isSome_iff_exists.mp (h x (List.mem_cons_self x xs))
    obtain ⟨ys, hys⟩ := Option.isSome_iff_exists.mp
      (omap_isSome fun a ha => h a (List.mem_cons_of_mem x ha))
    simp [omap, hy, hys]

theorem mem_omap {f : α → Option β} :
    ∀ {l : List α} {r : List β}, omap f l = some r →
      ∀ {y : β}, (y ∈ r ↔ ∃ x ∈ l, f x = some y)
  | [], r, h, y => by
    simp only [omap] at h
    injection h with h
    subst h
    simp
  | x :: xs, r, h, y => by
    unfold omap at h
    cases hx : f x with
    | none => rw [hx] at h; exact Option.noConfusion h
    | some z =>
      cases hxs : omap f xs with
      | none => rw [hx, hxs] at h; exact Option.noConfusion h
      | some zs =>
        rw [hx, hxs] at h
        injection h with h
        subst h
        simp only [List.mem_cons]
        constructor
        · rintro (rfl | hy)
          · exact ⟨x, Or.inl rfl, hx⟩
          · obtain ⟨a, ha, hfa⟩ := (mem_omap hxs).mp hy
            exact ⟨a, Or.inr ha, hfa⟩
        · rintro ⟨a, rfl | ha, hfa⟩
          · rw [hfa] at hx; exact Or.inl (Option.some.inj hx)
          · exact Or.inr ((mem_omap hxs).mpr ⟨a, ha, hfa⟩)

theorem omap_some_of_mem {f : α → Option β} :
    ∀ {l : List α} {r : List β}, omap f l = some r →
      ∀ {x : α}, x ∈ l → ∃ y, f x = some y
  | [], _, _, x, hx => by simp at hx
  | a :: xs, r, h, x, hx => by
    unfold omap at h
    cases ha : f a with
    | none => rw [ha] at h; exact Option.noConfusion h
    | some z =>
      cases hxs : omap f xs with
      | none => rw [ha, hxs] at h; exact Option.noConfusion h
      | some zs =>
        rcases List.mem_cons.mp hx with rfl | hx'
        · exact ⟨z, ha⟩
        · exact omap_some_of_mem hxs hx'

theorem chunksOfFuel_eq {n : Nat} :
    ∀ {fuel fuel' : Nat} {l : List α}, l.length ≤ fuel → l.length ≤ fuel' →
      chunksOfFuel n fuel l = chunksOfFuel n fuel' l
  | fuel, fuel', [], _, _ => by
    cases fuel <;> cases fuel' <;> rfl
  | fuel + 1, fuel' + 1, x :: xs, h, h' => by
    rw [chunksOfFuel, chunksOfFuel]
    congr 1
    exact chunksOfFuel_eq
      (by simp only [List.length_drop]; simp at h; omega)
      (by simp only [List.length_drop]; simp at h'; omega)

theorem chunksOf_nil (n : Nat) : chunksOf n ([] : List α) = [] := rfl

theorem chunksOf_cons (n : Nat) (x : α) (xs : List α) :
    chunksOf n (x :: xs) =
      (x :: xs.take (n - 1)) :: chunksOf n (xs.drop (n - 1)) := by
  unfold chunksOf
  rw [List.length_cons, chunksOfFuel]
  congr 1
  exact chunksOfFuel_eq (by simp [List.length_drop]) le_rfl

theorem chunksOf_flatten (n : Nat) :
    ∀ l : List α, (chunksOf n l).flatten = l
  | [] => by simp [chunksOf_nil]
  | x :: xs => by
    rw [chunksOf_cons]
    simp only [List.flatten_cons]
    rw [chunksOf_flatten n (xs.drop (n - 1))]
    simp [List.take_append_drop]
termination_by l => l.length
decreasing_by simp [List.length_drop]; omega

theorem length_mem_chunksOf {n : Nat} (hn : 1 ≤ n) :
    ∀ {l : List α} {c : List α}, c ∈ chunksOf n l → c.length ≤ n
  | [], c, h => by simp [chunksOf_nil] at h
  | x :: xs, c, h => by
    rw [chunksOf_cons] at h
    rcases List.mem_cons.mp h with rfl | h'
    · simp only [List.length_cons, List.length_take]
      omega
    · exact length_mem_chunksOf hn h'
termination_by l => l.length
decreasing_by simp [List.length_drop]; omega

theorem flatten_map_filter (p : α → Bool) :
    ∀ cs : List (List α), (cs.map (fun c => c.filter p)).flatten =
      cs.flatten.filter p
  | [] => rfl
  | c :: cs => by
    simp only [List.map_cons, List.flatten_cons, List.filter_append]
    rw [flatten_map_filter p cs]

theorem grouper_flatten (l : List String) (n : Nat) :
    (grouper l n).flatten = l.filter (fun s => !(s == "")) := by
  unfold grouper
  rw [flatten_map_filter, chunksOf_flatten]

theorem strUpper_idem (s : String) : strUpper (strUpper s) = strUpper s := by
  unfold strUpper
  apply congrArg String.mk
  simp only [List.map_map, List.map_inj_left, Function.comp_apply]
  intro c _
  exact toUpper_idem c

theorem keys_valid {hashes : List (String × Int)} (hv : ValidBatch hashes) :
    ∀ k ∈ (buildMapper hashes).map (·.1),
      (∃ bs, hexToBytes k = some bs) ∧ strUpper k = k ∧ k ≠ "" := by
  intro k hk
  obtain ⟨p, hp, hkp⟩ := mem_keys_buildMapper hk
  obtain ⟨hdec, hne⟩ := hv p hp
  obtain ⟨bs, hbs⟩ := Option.isSome_iff_exists.mp hdec
  subst hkp
  exact ⟨⟨bs, hexToBytes_strUpper hbs⟩, strUpper_idem p.1, strUpper_ne_empty hne⟩

/-- Characterization of one chunk query: on a chunk of decodable,
already-upper-cased mapper keys it succeeds, and its results are exactly
the stored rows whose hash decodes from some chunk element, paired with
the mapper's offset delta. -/
theorem queryChunk_char {db : DBState} {mapper : List (String × Int)}
    {chunk : List String}
    (hdec : ∀ k ∈ chunk, ∃ bs, hexToBytes k = some bs)
    (hkeys : ∀ k ∈ chunk, strUpper k = k ∧ k ∈ mapper.map (·.1)) :
    ∃ res, queryChunk db mapper chunk = some res ∧
      ∀ y, y ∈ res ↔ ∃ f ∈ db.fingerprints,
        (∃ k ∈ chunk, hexToBytes k = some f.hash) ∧
        ∃ q, dictGet mapper (bytesHexUpper f.hash) = some q ∧
          y = (f.song_id, f.offset - q) := by
  obtain ⟨blobs, hblobs⟩ := Option.isSome_iff_exists.mp
    (omap_isSome (f := hexToBytes) (l := chunk) fun k hk => by
      obtain ⟨bs, hbs⟩ := hdec k hk
      simp [hbs])
  have hhash : ∀ {f : Fingerprint}, f ∈ selectMultiple db blobs →
      ∃ k ∈ chunk, hexToBytes k = some f.hash := by
    intro f hf
    have := (List.mem_filter.mp hf).2
    exact (mem_omap hblobs).mp (by simpa using this)
  have hlook : ∀ {f : Fingerprint}, f ∈ selectMultiple db blobs →
      (dictGet mapper (bytesHexUpper f.hash)).isSome := by
    intro f hf
    obtain ⟨k, hk, hkdec⟩ := hhash hf
    have hup : bytesHexUpper f.hash = k := by
      rw [bytesHexUpper_of_decode hkdec, (hkeys k hk).1]
    rw [hup]
    exact (dictGet_isSome_iff mapper k).mpr (hkeys k hk).2
  obtain ⟨res, hres⟩ := Option.isSome_iff_exists.mp
    (omap_isSome (f := processRow mapper) (l := selectMultiple db blobs) fun f hf => by
      unfold processRow
      have := hlook hf
      obtain ⟨q, hq⟩ := Option.isSome_iff_exists.mp this
      simp [hq])
  refine ⟨res, ?_, ?_⟩
  · simp only [queryChunk, hblobs, hres]
  · intro y
    rw [mem_omap hres]
    constructor
    · rintro ⟨f, hf, hy⟩
      obtain ⟨q, hq, hyq⟩ := by
        unfold processRow at hy
        exact Option.map_eq_some'.mp hy
      exact ⟨f, (List.mem_filter.mp hf).1, hhash hf, q, hq, hyq.symm⟩
    · rintro ⟨f, hf, ⟨k, hk, hkdec⟩, q, hq, hyq⟩
      refine ⟨f, List.mem_filter.mpr ⟨hf, ?_⟩, ?_⟩
      · simp only [decide_eq_true_eq]
        exact (mem_omap hblobs).mpr ⟨k, hk, hkdec⟩
      · unfold processRow
        rw [hq, hyq]
        rfl

/-- Membership in a `grouper` chunk implies membership in the chunked
list. -/
theorem mem_of_mem_grouper {l : List String} {n : Nat} {c : List String}
    {k : String} (hc : c ∈ grouper l n) (hk : k ∈ c) :
    k ∈ l.filter (fun s => !(s == "")) := by
  rw [← grouper_flatten l n]
  exact List.mem_flatten.mpr ⟨c, hc, hk⟩

/-- Full characterization of `return_matches` on a well-formed batch: it
succeeds, and its results are exactly the stored rows whose hash decodes
from some mapper key, with the dict's offset delta. -/
theorem return_matches_char {db : DBState} {hashes : List (String × Int)}
    (hv : ValidBatch hashes) :
    ∃ r, return_matches db hashes = some r ∧
      ∀ y, y ∈ r ↔ ∃ f ∈ db.fingerprints,
        (∃ k ∈ (buildMapper hashes).map (·.1), hexToBytes k = some f.hash) ∧
        ∃ q, dictGet (buildMapper hashes) (bytesHexUpper f.hash) = some q ∧
          y = (f.song_id, f.offset - q) := by
  have kv := keys_valid hv
  have hflat : (grouper ((buildMapper hashes).map (·.1)) 999).flatten =
      (buildMapper hashes).map (·.1) := by
    rw [grouper_flatten]
    exact List.filter_eq_self.mpr fun k hk => by
      simp [(kv k hk).2.2]
  have hchunk : ∀ c ∈ grouper ((buildMapper hashes).map (·.1)) 999,
      ∃ res, queryChunk db (buildMapper hashes) c = some res ∧
        ∀ y, y ∈ res ↔ ∃ f ∈ db.fingerprints,
          (∃ k ∈ c, hexToBytes k = some f.hash) ∧
          ∃ q, dictGet (buildMapper hashes) (bytesHexUpper f.hash) = some q ∧
            y = (f.song_id, f.offset - q) := by
    intro c hc
    have hsub : ∀ k ∈ c, k ∈ (buildMapper hashes).map (·.1) := by
      intro k hk
      have := mem_of_mem_grouper hc hk
      rw [← grouper_flatten _ 999, hflat] at this
      exact this
    exact queryChunk_char (fun k hk => (kv k (hsub k hk)).1)
      (fun k hk => ⟨(kv k (hsub k hk)).2.1, hsub k hk⟩)
  obtain ⟨rss, hrss⟩ := Option.isSome_iff_exists.mp
    (omap_isSome (f := queryChunk db (buildMapper hashes))
      (l := grouper ((buildMapper hashes).map (·.1)) 999) fun c hc => by
      obtain ⟨res, hres, _⟩ := hchunk c hc
      simp [hres])
  refine ⟨rss.flatten, ?_, ?_⟩
  · simp only [return_matches, hrss]
  · intro y
    rw [List.mem_flatten]
    constructor
    · rintro ⟨rs, hrs, hy⟩
      obtain ⟨c, hc, hcrs⟩ := (mem_omap hrss).mp hrs
      obtain ⟨res, hres, hiff⟩ := hchunk c hc
      rw [hres] at hcrs
      injection hcrs with hcrs
      subst hcrs
      obtain ⟨f, hf, ⟨k, hk, hkdec⟩, q, hq, hyq⟩ := (hiff y).mp hy
      refine ⟨f, hf, ⟨k, ?_, hkdec⟩, q, hq, hyq⟩
      have := mem_of_mem_grouper hc hk
      rw [← grouper_flatten _ 999, hflat] at this
      exact this
    · rintro ⟨f, hf, ⟨k, hk, hkdec⟩, q, hq, hyq⟩
      rw [← hflat] at hk
      obtain ⟨c, hc, hkc⟩ := List.mem_flatten.mp hk
      obtain ⟨res, hres, hiff⟩ := hchunk c hc
      refine ⟨res, (mem_omap hrss).mpr ⟨c, hc, hres⟩, ?_⟩
      exact (hiff y).mpr ⟨f, hf, ⟨k, hkc, hkdec⟩, q, hq, hyq⟩

/-- Soundness of a successful run, with no side conditions: every emitted
pair is backed by a stored row matching some query hash and uses the
deduplicated (last-occurrence) query offset. -/
theorem return_matches_sound_aux {db : DBState} {hashes : List (String × Int)}
    {r : List (Nat × Int)} (h : return_matches db hashes = some r) :
    ∀ y ∈ r, ∃ f ∈ db.fingerprints, ∃ p ∈ hashes,
      hexToBytes (strUpper p.1) = some f.hash ∧
      ∃ q, lastOffset hashes (strUpper p.1) = some q ∧
        y = (f.song_id, f.offset - q) := by
  intro y hy
  unfold return_matches at h
  rcases hrss : omap (queryChunk db (buildMapper hashes))
      (grouper ((buildMapper hashes).map (·.1)) 999) with _ | rss
  · simp only [hrss] at h
    exact Option.noConfusion h
  · simp only [hrss, Option.some.injEq] at h
    subst h
    obtain ⟨rs, hrs, hyrs⟩ := List.mem_flatten.mp hy
    obtain ⟨c, hc, hcrs⟩ := (mem_omap hrss).mp hrs
    unfold queryChunk at hcrs
    rcases hblobs : omap hexToBytes c with _ | blobs
    · rw [hblobs] at hcrs
      exact Option.noConfusion hcrs
    · rw [hblobs] at hcrs
      obtain ⟨f, hfsel, hfy⟩ := (mem_omap hcrs).mp hyrs
      have hfmem : f ∈ db.fingerprints := (List.mem_filter.mp hfsel).1
      have hfblob : f.hash ∈ blobs := by
        have := (List.mem_filter.mp hfsel).2
        simpa using this
      obtain ⟨k, hkc, hkdec⟩ := (mem_omap hblobs).mp hfblob
      have hkkeys : k ∈ (buildMapper hashes).map (·.1) :=
        (List.mem_filter.mp (mem_of_mem_grouper hc hkc)).1
      obtain ⟨p, hp, hkp⟩ := mem_keys_buildMapper hkkeys
      obtain ⟨q, hq, hyq⟩ := by
        unfold processRow at hfy
        exact Option.map_eq_some'.mp hfy
      have hup : bytesHexUpper f.hash = strUpper p.1 := by
        rw [bytesHexUpper_of_decode hkdec, hkp, strUpper_idem]
      refine ⟨f, hfmem, p, hp, by rw [← hkp]; exact hkdec, q, ?_, hyq.symm⟩
      rw [← dictGet_buildMapper_eq_lastOffset, ← hup]
      exact hq

/-- Completeness: a stored row whose hash has a deduplicated query offset
is reflected in the results of a well-formed batch. -/
theorem return_matches_complete_aux {db : DBState}
    {hashes : List (String × Int)} (hv : ValidBatch hashes)
    {h : String} {b : List Nat} {sid : Nat} {o q : Int}
    (hdec : hexToBytes h = some b)
    (hf : (⟨b, sid, o⟩ : Fingerprint) ∈ db.fingerprints)
    (hq : lastOffset hashes (strUpper h) = some q) :
    ∃ r, return_matches db hashes = some r ∧ (sid, o - q) ∈ r := by
  obtain ⟨r, hr, hiff⟩ := return_matches_char hv
  refine ⟨r, hr, ?_⟩
  have hpmem : ∃ p ∈ hashes, strUpper p.1 = strUpper h := by
    unfold lastOffset at hq
    obtain ⟨p₀, hp₀⟩ := Option.map_eq_some'.mp hq
    refine ⟨p₀, List.mem_reverse.mp (List.mem_of_find?_eq_some hp₀.1), ?_⟩
    have := List.find?_some hp₀.1
    simpa using this
  obtain ⟨p, hp, hpk⟩ := hpmem
  have hkkeys : strUpper h ∈ (buildMapper hashes).map (·.1) := by
    rw [← hpk]
    exact strUpper_mem_keys_buildMapper hp
  refine (hiff (sid, o - q)).mpr ⟨⟨b, sid, o⟩, hf, ⟨strUpper h, hkkeys,
    hexToBytes_strUpper hdec⟩, q, ?_, rfl⟩
  have hup : bytesHexUpper b = strUpper h := bytesHexUpper_of_decode hdec
  rw [hup, dictGet_buildMapper_eq_lastOffset]
  exact hq

theorem ok_bind (db : DBState) (f : DBState → Except String DBState) :
    (Except.ok db : Except String DBState).bind f = f db := rfl

theorem foldl_insert_error (sid : Nat) (e : String) :
    ∀ rows : List (List Nat × Int),
      rows.foldl (fun acc r => acc.bind (fun d => insertRow d sid r))
        (Except.error e) = Except.error e
  | [] => rfl
  | _ :: rest => foldl_insert_error sid e rest

theorem insertRow_ok {db db' : DBState} {sid : Nat} {r : List Nat × Int}
    (h : insertRow db sid r = Except.ok db') :
    db'.songs = db.songs ∧ db'.next_id = db.next_id ∧
    (∀ f ∈ db.fingerprints, f ∈ db'.fingerprints) ∧
    (⟨r.1, sid, r.2⟩ : Fingerprint) ∈ db'.fingerprints ∧
    (∀ f ∈ db'.fingerprints, f ∈ db.fingerprints ∨ f = ⟨r.1, sid, r.2⟩) ∧
    (∃ s ∈ db.songs, s.song_id = sid) := by
  unfold insertRow at h
  by_cases hfk : ∃ s ∈ db.songs, s.song_id = sid
  · rw [if_neg (not_not_intro hfk)] at h
    by_cases hdup : (⟨r.1, sid, r.2⟩ : Fingerprint) ∈ db.fingerprints
    · rw [if_pos hdup] at h
      injection h with h
      subst h
      exact ⟨rfl, rfl, fun f hf => hf, hdup, fun f hf => Or.inl hf, hfk⟩
    · rw [if_neg hdup] at h
      injection h with h
      subst h
      refine ⟨rfl, rfl, fun f hf => List.mem_append_left _ hf,
        List.mem_append_right _ (List.mem_singleton_self _), ?_, hfk⟩
      intro f hf
      rcases List.mem_append.mp hf with hf' | hf'
      · exact Or.inl hf'
      · exact Or.inr (List.mem_singleton.mp hf')
  · rw [if_pos hfk] at h
    exact Except.noConfusion h

theorem insertFold_ok :
    ∀ {rows : List (List Nat × Int)} {db db' : DBState} {sid : Nat},
      insertFold db sid rows = Except.ok db' →
      db'.songs = db.songs ∧ db'.next_id = db.next_id ∧
      (∀ f ∈ db.fingerprints, f ∈ db'.fingerprints) ∧
      (∀ r ∈ rows, (⟨r.1, sid, r.2⟩ : Fingerprint) ∈ db'.fingerprints) ∧
      (∀ f ∈ db'.fingerprints,
        f ∈ db.fingerprints ∨ ∃ r ∈ rows, f = ⟨r.1, sid, r.2⟩)
  | [], db, db', sid, h => by
    unfold insertFold at h
    injection h with h
    subst h
    exact ⟨rfl, rfl, fun f hf => hf, by simp, fun f hf => Or.inl hf⟩
  | r :: rest, db, db', sid, h => by
    unfold insertFold at h
    simp only [List.foldl_cons, ok_bind] at h
    rcases h1 : insertRow db sid r with e | d₁
    · rw [h1, foldl_insert_error] at h
      exact Except.noConfusion h
    · rw [h1] at h
      have hrec := insertFold_ok h
      obtain ⟨hs, hn, hkeep, hnew, hfrom, _⟩ := insertRow_ok h1
      refine ⟨hrec.1.trans hs, hrec.2.1.trans hn,
        fun f hf => hrec.2.2.1 f (hkeep f hf), ?_, ?_⟩
      · intro r' hr'
        rcases List.mem_cons.mp hr' with rfl | hr''
        · exact hrec.2.2.1 _ hnew
        · exact hrec.2.2.2.1 r' hr''
      · intro f hf
        rcases hrec.2.2.2.2 f hf with hf' | hf'
        · rcases hfrom f hf' with hf'' | hf''
          · exact Or.inl hf''
          · exact Or.inr ⟨r, List.mem_cons_self r rest, hf''⟩
        · obtain ⟨r', hr', hfr⟩ := hf'
          exact Or.inr ⟨r', List.mem_cons_of_mem r hr', hfr⟩

theorem insertFold_head_ok {rows : List (List Nat × Int)} {db db' : DBState}
    {sid : Nat} {r : List Nat × Int}
    (h : insertFold db sid (r :: rows) = Except.ok db') :
    ∃ d₁, insertRow db sid r = Except.ok d₁ ∧
      insertFold d₁ sid rows = Except.ok db' := by
  unfold insertFold at h ⊢
  simp only [List.foldl_cons, ok_bind] at h
  rcases h1 : insertRow db sid r with e | d₁
  · rw [h1, foldl_insert_error] at h
    exact Except.noConfusion h
  · rw [h1] at h
    exact ⟨d₁, rfl, h⟩

theorem insertFold_dup :
    ∀ {rows : List (List Nat × Int)} {db : DBState} {sid : Nat},
      (∀ r ∈ rows, (⟨r.1, sid, r.2⟩ : Fingerprint) ∈ db.fingerprints) →
      (rows = [] ∨ ∃ s ∈ db.songs, s.song_id = sid) →
      insertFold db sid rows = Except.ok db
  | [], _, _, _, _ => rfl
  | r :: rest, db, sid, hdup, hsid => by
    have hfk : ∃ s ∈ db.songs, s.song_id = sid := by
      rcases hsid with h | h
      · exact List.noConfusion h
      · exact h
    have h1 : insertRow db sid r = Except.ok db := by
      unfold insertRow
      rw [if_neg (not_not_intro hfk),
        if_pos (hdup r (List.mem_cons_self r rest))]
    unfold insertFold
    simp only [List.foldl_cons, ok_bind]
    rw [h1]
    exact insertFold_dup (fun r' hr' => hdup r' (List.mem_cons_of_mem r hr'))
      (Or.inr hfk)

theorem insertFold_noDangling :
    ∀ {rows : List (List Nat × Int)} {db db' : DBState} {sid : Nat},
      noDangling db → insertFold db sid rows = Except.ok db' →
      noDangling db'
  | [], db, db', sid, hnd, h => by
    unfold insertFold at h
    injection h with h
    subst h
    exact hnd
  | r :: rest, db, db', sid, hnd, h => by
    obtain ⟨d₁, h1, hrest⟩ := insertFold_head_ok h
    refine insertFold_noDangling ?_ hrest
    obtain ⟨hs, _, _, _, hfrom, hfk⟩ := insertRow_ok h1
    intro f hf
    rcases hfrom f hf with hf' | hf'
    · obtain ⟨s, hs', hsid⟩ := hnd f hf'
      exact ⟨s, hs ▸ hs', hsid⟩
    · subst hf'
      obtain ⟨s, hs', hsid⟩ := hfk
      exact ⟨s, hs ▸ hs', hsid⟩

/-- On a well-formed batch no mapper key is dropped by `grouper`'s
truthiness filter: the chunks partition the key list exactly. -/
theorem grouper_keys_flatten {hashes : List (String × Int)}
    (hv : ValidBatch hashes) :
    (grouper ((buildMapper hashes).map (·.1)) 999).flatten =
      (buildMapper hashes).map (·.1) := by
  rw [grouper_flatten]
  exact List.filter_eq_self.mpr fun k hk => by
    simp [(keys_valid hv k hk).2.2]

/-- C1 (counterexample): the claim fails as stated.  Recording 1 stores
hash `AA` at offset 10; the batch `[("AA", 3), ("AA", 5)]` contains the
pair `("AA", 3)`, yet `return_matches` emits only `(1, 10 - 5)` — the
dict comprehension keeps the offset of the *last* occurrence of a repeated
hash — so `(1, 10 - 3)` is not among the results. -/
theorem match_completeness_counterexample :
    (⟨[170], 1, 10⟩ : Fingerprint) ∈ exDB.fingerprints ∧
    ("AA", (3 : Int)) ∈ [(("AA" : String), (3 : Int)), ("AA", 5)] ∧
    return_matches exDB [("AA", 3), ("AA", 5)] = some [(1, 5)] ∧
    ((1 : Nat), (10 - 3 : Int)) ∉ [((1 : Nat), (5 : Int))] := by
  refine ⟨by decide, by decide, by decide, by decide⟩

/-- C1 (amended): for a recording with a stored fingerprint of hash `h` at
offset `o`, querying a well-formed batch containing `(h, q)` yields
`(recording_id, o - q)` among the results, provided `q` is the offset the
deduplication retains for `h` — the offset of the last occurrence of `h`
(case-insensitively) in the batch. -/
theorem match_completeness_amended {db : DBState}
    {hashes : List (String × Int)} {h : String} {b : List Nat} {sid : Nat}
    {o q : Int} (hv : ValidBatch hashes) (hdec : hexToBytes h = some b)
    (hstore : (⟨b, sid, o⟩ : Fingerprint) ∈ db.fingerprints)
    (hbatch : (h, q) ∈ hashes)
    (hlast : lastOffset hashes (strUpper h) = some q) :
    ∃ r, return_matches db hashes = some r ∧ (sid, o - q) ∈ r :=
  return_matches_complete_aux hv hdec hstore hlast

/-- C1 (witness for the amended claim): on the example store, querying
`[("AA", 3), ("CC", 5)]` yields `(1, 10 - 3)`. -/
theorem match_completeness_amended_witness :
    ∃ r, return_matches exDB [("AA", 3), ("CC", 5)] = some r ∧
      ((1 : Nat), (10 - 3 : Int)) ∈ r :=
  @match_completeness_amended exDB [("AA", 3), ("CC", 5)] "AA" [170] 1 10 3
    (by decide) (by decide) (by decide) (by decide) (by decide)

/-- C2: on a well-formed batch (hex-decodable, nonempty hashes — the
rendering of fixed-size binary fingerprints), the chunked `return_matches`
and the unchunked single-predicate reference both succeed and produce the
same result set, and every chunk respects the 999-parameter bound. -/
theorem chunking_transparency {db : DBState} {hashes : List (String × Int)}
    (hv : ValidBatch hashes) :
    ∃ r₁ r₂, return_matches db hashes = some r₁ ∧
      return_matches_unchunked db hashes = some r₂ ∧
      (∀ y, y ∈ r₁ ↔ y ∈ r₂) ∧
      ∀ c ∈ grouper ((buildMapper hashes).map (·.1)) 999, c.length ≤ 999 := by
  obtain ⟨r₁, hr₁, hiff₁⟩ := return_matches_char hv
  have kv := keys_valid hv
  obtain ⟨r₂, hr₂, hiff₂⟩ := @queryChunk_char db (buildMapper hashes)
    ((buildMapper hashes).map (·.1))
    (fun k hk => (kv k hk).1) (fun k hk => ⟨(kv k hk).2.1, hk⟩)
  refine ⟨r₁, r₂, hr₁, hr₂, fun y => (hiff₁ y).trans (hiff₂ y).symm, ?_⟩
  intro c hc
  obtain ⟨c₀, hc₀, hcc⟩ := List.mem_map.mp hc
  calc c.length = (c₀.filter _).length := by rw [hcc]
    _ ≤ c₀.length := List.length_filter_le _ _
    _ ≤ 999 := length_mem_chunksOf (by omega) hc₀

/-- C2 (witness): a five-hash batch against the example store. -/
theorem chunking_transparency_witness :
    ∃ r₁ r₂,
      return_matches exDB
        [("AA", 3), ("BB", 4), ("CC", 5), ("DD", 6), ("EE", 7)] = some r₁ ∧
      return_matches_unchunked exDB
        [("AA", 3), ("BB", 4), ("CC", 5), ("DD", 6), ("EE", 7)] = some r₂ ∧
      (∀ y, y ∈ r₁ ↔ y ∈ r₂) ∧
      ∀ c ∈ grouper ((buildMapper
        [("AA", 3), ("BB", 4), ("CC", 5), ("DD", 6), ("EE", 7)]).map (·.1))
          999, c.length ≤ 999 :=
  chunking_transparency (by decide)

/-- C3: ingestion is idempotent — if `insert_hashes` succeeds, running it
again with the same pairs returns the same state unchanged (every triple,
in-batch or pre-existing, is silently dropped by `INSERT OR IGNORE`), so
the stored fingerprint rows and their count are those of a single call. -/
theorem insert_hashes_idempotent {db db₁ : DBState} {sid : Nat}
    {hashes : List (String × Int)}
    (h : insert_hashes db sid hashes = Except.ok db₁) :
    insert_hashes db₁ sid hashes = Except.ok db₁ := by
  unfold insert_hashes at h ⊢
  rcases hrows : omap (fun p => (hexToBytes p.1).map (fun b => (b, p.2)))
      hashes with _ | rows
  · rw [hrows] at h
    exact Except.noConfusion h
  · rw [hrows] at h ⊢
    have hfold : insertFold db sid rows = Except.ok db₁ := h
    have hfacts := insertFold_ok hfold
    show insertFold db₁ sid rows = Except.ok db₁
    apply insertFold_dup
    · exact fun r hr => hfacts.2.2.2.1 r hr
    · cases rows with
      | nil => exact Or.inl rfl
      | cons r rest =>
        obtain ⟨d₁, h1, _⟩ := insertFold_head_ok hfold
        obtain ⟨_, _, _, _, _, hfk⟩ := insertRow_ok h1
        right
        rw [hfacts.1]
        exact hfk

/-- C3 (witness): re-ingesting `AA` at 10 and `BB` at 20 into the state
that already holds them is a no-op. -/
theorem insert_hashes_idempotent_witness :
    insert_hashes exIngested 1 [("AA", 10), ("BB", 20)] =
      Except.ok exIngested :=
  insert_hashes_idempotent
    (show insert_hashes exFresh 1 [("AA", 10), ("BB", 20)] =
      Except.ok exIngested from rfl)

/-- C4: after `setup`, no song with `fingerprinted = false` (nor any of its
fingerprints) remains; every fingerprinted song survives with all its
fingerprints; no fingerprint is added; and a repeated `setup` is a no-op
(the operation is total — it never fails). Song ids are assumed distinct,
as `song_id` is the primary key. -/
theorem setup_purges_unfingerprinted {db : DBState}
    (hids : (db.songs.map (·.song_id)).Nodup) :
    (∀ s ∈ db.songs, s.fingerprinted = false →
      (∀ t ∈ (setup db).songs, t.song_id ≠ s.song_id) ∧
      ∀ f ∈ (setup db).fingerprints, f.song_id ≠ s.song_id) ∧
    (∀ s ∈ db.songs, s.fingerprinted = true →
      s ∈ (setup db).songs ∧
      ∀ f ∈ db.fingerprints, f.song_id = s.song_id →
        f ∈ (setup db).fingerprints) ∧
    (∀ f ∈ (setup db).fingerprints, f ∈ db.fingerprints) ∧
    setup (setup db) = setup db := by
  refine ⟨?_, ?_, ?_, ?_⟩
  · intro s hs hsf
    constructor
    · intro t ht hid
      have ht' := List.mem_filter.mp ht
      have : t = s := List.inj_on_of_nodup_map hids ht'.1 hs hid
      rw [this] at ht'
      rw [hsf] at ht'
      exact Bool.noConfusion ht'.2
    · intro f hf hid
      have hf' := (List.mem_filter.mp hf).2
      simp only [Bool.not_eq_true', List.any_eq_false, Bool.and_eq_true,
        Bool.not_eq_true, beq_iff_eq, not_and] at hf'
      exact hf' s hs (by rw [hsf]) hid.symm
  · intro s hs hsf
    constructor
    · exact List.mem_filter.mpr ⟨hs, hsf⟩
    · intro f hf hid
      refine List.mem_filter.mpr ⟨hf, ?_⟩
      simp only [Bool.not_eq_true', List.any_eq_false, Bool.and_eq_true,
        Bool.not_eq_true, beq_iff_eq, not_and]
      intro t ht htf hid'
      have : t = s := List.inj_on_of_nodup_map hids ht hs (by rw [hid', hid])
      rw [this, hsf] at htf
      exact Bool.noConfusion htf
  · exact fun f hf => (List.mem_filter.mp hf).1
  · show setup (setup db) = setup db
    unfold setup
    simp only
    congr 1
    · rw [List.filter_filter]
      exact List.filter_congr fun s _ => by cases s.fingerprinted <;> rfl
    · apply List.filter_eq_self.mpr
      intro f hf
      simp only [Bool.not_eq_true', List.any_eq_false, Bool.and_eq_true,
        Bool.not_eq_true, beq_iff_eq, not_and]
      intro t ht htf
      have := (List.mem_filter.mp ht).2
      rw [htf] at this
      exact absurd this (by decide)

/-- C4 (witness): on `exDB2`, `setup` removes song 2 and its fingerprint
and keeps song 1 with its fingerprint. -/
theorem setup_purges_unfingerprinted_witness :
    (∀ t ∈ (setup exDB2).songs, t.song_id ≠ 2) ∧
    (⟨1, "A", true, [170]⟩ : Song) ∈ (setup exDB2).songs ∧
    (⟨[170], 1, 10⟩ : Fingerprint) ∈ (setup exDB2).fingerprints := by
  have h := @setup_purges_unfingerprinted exDB2 (by decide)
  have h2 := h.1 ⟨2, "B", false, [187]⟩ (by decide) rfl
  have h1 := h.2.1 ⟨1, "A", true, [170]⟩ (by decide) rfl
  exact ⟨h2.1, h1.1, h1.2 ⟨[170], 1, 10⟩ (by decide) rfl⟩

theorem insert_song_decode {db : DBState} {m g : String} {b : List Nat}
    (h : hexToBytes g = some b) :
    insert_song db m g =
      if ∃ s ∈ db.songs, s.file_sha1 = b then
        Except.error "UNIQUE constraint failed: songs.file_sha1"
      else
        Except.ok ({ db with
          songs := db.songs ++ [⟨db.next_id, m, false, b⟩]
          next_id := db.next_id + 1 }, db.next_id) := by
  unfold insert_song
  rw [h]

/-- C5: creating a recording with a fresh content hash succeeds and returns
the fresh AUTOINCREMENT id; a second creation with the same content hash
(under any name and hex casing) fails with the uniqueness error, leaving
exactly one stored recording with that digest. -/
theorem insert_song_unique_content {db : DBState} {m n g g' : String}
    {b : List Nat} (h : hexToBytes g = some b) (h' : hexToBytes g' = some b)
    (hfresh : ∀ s ∈ db.songs, s.song_id < db.next_id)
    (hnew : ∀ s ∈ db.songs, s.file_sha1 ≠ b) :
    ∃ d, insert_song db m g = Except.ok (d, db.next_id) ∧
      (∀ s ∈ db.songs, s.song_id ≠ db.next_id) ∧
      (∃ e, insert_song d n g' = Except.error e) ∧
      (d.songs.filter (fun s => decide (s.file_sha1 = b))).length = 1 := by
  have hnodup : ¬ ∃ s ∈ db.songs, s.file_sha1 = b := by
    rintro ⟨s, hs, hb⟩
    exact hnew s hs hb
  refine ⟨{ db with
    songs := db.songs ++ [⟨db.next_id, m, false, b⟩]
    next_id := db.next_id + 1 }, ?_, ?_, ?_, ?_⟩
  · rw [insert_song_decode h, if_neg hnodup]
  · exact fun s hs => Nat.ne_of_lt (hfresh s hs)
  · refine ⟨"UNIQUE constraint failed: songs.file_sha1", ?_⟩
    rw [insert_song_decode h']
    rw [if_pos ⟨⟨db.next_id, m, false, b⟩,
      List.mem_append_right _ (List.mem_singleton_self _), rfl⟩]
  · rw [List.filter_append]
    have hleft : db.songs.filter (fun s => decide (s.file_sha1 = b)) = [] :=
      List.filter_eq_nil.mpr fun s hs => by simp [hnew s hs]
    rw [hleft]
    simp

/-- C5 (witness): adding content hash `bb` to the example store succeeds
with id 2; repeating it (as `BB`) fails and one copy remains. -/
theorem insert_song_unique_content_witness :
    ∃ d, insert_song exDB "B" "bb" = Except.ok (d, 2) ∧
      (∀ s ∈ exDB.songs, s.song_id ≠ 2) ∧
      (∃ e, insert_song d "B2" "BB" = Except.error e) ∧
      (d.songs.filter (fun s => decide (s.file_sha1 = [187]))).length = 1 :=
  @insert_song_unique_content exDB "B" "B2" "bb" "BB" [187]
    (by decide) (by decide) (by decide) (by decide)

/-- C6: when the same hash recurs in the batch (also across hex casings),
every delta for it uses the offset of its last occurrence, and each
distinct (upper-cased) query hash occurs exactly once in the chunked list
sent to the storage engine. -/
theorem return_matches_dedup_last_wins {db : DBState}
    {hashes : List (String × Int)} (hv : ValidBatch hashes) :
    (∀ p ∈ hashes,
      (grouper ((buildMapper hashes).map (·.1)) 999).flatten.count
        (strUpper p.1) = 1) ∧
    ∃ r, return_matches db hashes = some r ∧
      ∀ y, y ∈ r ↔ ∃ f ∈ db.fingerprints,
        (∃ k ∈ (buildMapper hashes).map (·.1), hexToBytes k = some f.hash) ∧
        ∃ q, lastOffset hashes (bytesHexUpper f.hash) = some q ∧
          y = (f.song_id, f.offset - q) := by
  constructor
  · intro p hp
    rw [grouper_keys_flatten hv]
    exact List.count_eq_one_of_mem (nodup_keys_buildMapper hashes)
      (strUpper_mem_keys_buildMapper hp)
  · obtain ⟨r, hr, hiff⟩ := return_matches_char hv
    refine ⟨r, hr, fun y => (hiff y).trans ?_⟩
    constructor
    · rintro ⟨f, hf, hk, q, hq, hyq⟩
      refine ⟨f, hf, hk, q, ?_, hyq⟩
      rw [← dictGet_buildMapper_eq_lastOffset]
      exact hq
    · rintro ⟨f, hf, hk, q, hq, hyq⟩
      refine ⟨f, hf, hk, q, ?_, hyq⟩
      rw [dictGet_buildMapper_eq_lastOffset]
      exact hq

/-- C6 (witness): in the batch `[("AA", 3), ("aa", 5)]` the hash is sent
once, and matching succeeds. -/
theorem return_matches_dedup_last_wins_witness :
    (grouper ((buildMapper [(("AA" : String), (3 : Int)), ("aa", 5)]).map
      (·.1)) 999).flatten.count (strUpper "AA") = 1 ∧
    ∃ r, return_matches exDB [("AA", 3), ("aa", 5)] = some r := by
  have h := @return_matches_dedup_last_wins exDB [("AA", 3), ("aa", 5)]
    (by decide)
  refine ⟨h.1 ("AA", 3) (by decide), ?_⟩
  obtain ⟨r, hr, _⟩ := h.2
  exact ⟨r, hr⟩

/-- C7: deleting a recording under the declared cascade removes its song
row and exactly the fingerprints referencing it; every other song and
fingerprint row is untouched. -/
theorem delete_recording_cascade_frame (db : DBState) (i : Nat) :
    (∀ f ∈ db.fingerprints, f.song_id = i →
      f ∉ (delete_recording db i).fingerprints) ∧
    (∀ f ∈ db.fingerprints, f.song_id ≠ i →
      f ∈ (delete_recording db i).fingerprints) ∧
    (∀ f ∈ (delete_recording db i).fingerprints, f ∈ db.fingerprints) ∧
    (∀ s ∈ db.songs, s.song_id ≠ i → s ∈ (delete_recording db i).songs) ∧
    (∀ s ∈ (delete_recording db i).songs, s ∈ db.songs ∧ s.song_id ≠ i) := by
  refine ⟨?_, ?_, ?_, ?_, ?_⟩
  · intro f _ hfi hmem
    have := (List.mem_filter.mp hmem).2
    simp [hfi] at this
  · intro f hf hfi
    exact List.mem_filter.mpr ⟨hf, by simp [hfi]⟩
  · exact fun f hf => (List.mem_filter.mp hf).1
  · intro s hs hsi
    exact List.mem_filter.mpr ⟨hs, by simp [hsi]⟩
  · intro s hs
    have h := List.mem_filter.mp hs
    refine ⟨h.1, ?_⟩
    have := h.2
    simpa using this

/-- C7 (witness): deleting recording 2 from `exDB2` drops its fingerprint
and keeps recording 1 and its fingerprint. -/
theorem delete_recording_cascade_frame_witness :
    (⟨[204], 2, 7⟩ : Fingerprint) ∉ (delete_recording exDB2 2).fingerprints ∧
    (⟨[170], 1, 10⟩ : Fingerprint) ∈ (delete_recording exDB2 2).fingerprints ∧
    (⟨1, "A", true, [170]⟩ : Song) ∈ (delete_recording exDB2 2).songs := by
  have h := delete_recording_cascade_frame exDB2 2
  exact ⟨h.1 ⟨[204], 2, 7⟩ (by decide) rfl,
    h.2.1 ⟨[170], 1, 10⟩ (by decide) (by decide),
    h.2.2.2.1 ⟨1, "A", true, [170]⟩ (by decide) (by decide)⟩

theorem insert_decode_some {db : DBState} {g : String} {i : Nat} {o : Int}
    {b : List Nat} (h : hexToBytes g = some b) :
    insert db g i o = insertRow db i (b, o) := by
  unfold insert
  rw [h]

theorem insert_decode_none {db : DBState} {g : String} {i : Nat} {o : Int}
    (h : hexToBytes g = none) :
    insert db g i o =
      Except.error "ValueError: non-hexadecimal number found in fromhex() arg" := by
  unfold insert
  rw [h]

/-- C8: inserting a fingerprint for a `song_id` matching no stored
recording fails with an error (with foreign keys on, `OR IGNORE` does not
cover foreign-key violations), and a successful `insert_hashes` never
leaves a fingerprint referencing a nonexistent recording. -/
theorem fingerprint_fk_enforced (db : DBState) (i : Nat) :
    ((∀ s ∈ db.songs, s.song_id ≠ i) →
      ∀ (g : String) (o : Int), ∃ e, insert db g i o = Except.error e) ∧
    (∀ (l : List (String × Int)) (d : DBState), noDangling db →
      insert_hashes db i l = Except.ok d → noDangling d) := by
  constructor
  · intro hno g o
    cases hg : hexToBytes g with
    | none => exact ⟨_, insert_decode_none hg⟩
    | some blob =>
      refine ⟨"FOREIGN KEY constraint failed", ?_⟩
      rw [insert_decode_some hg]
      unfold insertRow
      rw [if_pos (by rintro ⟨s, hs, hsi⟩; exact hno s hs hsi)]
  · intro l d hnd hok
    unfold insert_hashes at hok
    rcases hrows : omap (fun p => (hexToBytes p.1).map (fun b => (b, p.2))) l
      with _ | rows
    · rw [hrows] at hok
      exact Except.noConfusion hok
    · rw [hrows] at hok
      exact insertFold_noDangling hnd hok

/-- C8 (witness): inserting hash `DD` for the nonexistent recording 99
fails. -/
theorem fingerprint_fk_enforced_witness :
    ∃ e, insert exDB "DD" 99 (3 : Int) = Except.error e :=
  (fingerprint_fk_enforced exDB 99).1 (by decide) "DD" 3

/-- C9: after creating a recording from a hex digest string, looking its id
up returns the name together with the uppercase hex rendering of the
stored binary digest — the upper-cased input string, not necessarily the
input character for character. -/
theorem get_song_by_id_roundtrip {db : DBState} {m g : String} {b : List Nat}
    (h : hexToBytes g = some b)
    (hfresh : ∀ s ∈ db.songs, s.song_id < db.next_id)
    (hnew : ∀ s ∈ db.songs, s.file_sha1 ≠ b) :
    ∃ d, insert_song db m g = Except.ok (d, db.next_id) ∧
      get_song_by_id d db.next_id = some (m, strUpper g) ∧
      strUpper g = bytesHexUpper b := by
  have hnodup : ¬ ∃ s ∈ db.songs, s.file_sha1 = b := by
    rintro ⟨s, hs, hb⟩
    exact hnew s hs hb
  refine ⟨{ db with
      songs := db.songs ++ [⟨db.next_id, m, false, b⟩]
      next_id := db.next_id + 1 },
    by rw [insert_song_decode h, if_neg hnodup], ?_,
    (bytesHexUpper_of_decode h).symm⟩
  unfold get_song_by_id
  simp only
  rw [List.find?_append]
  have hnone : db.songs.find? (fun s => s.song_id == db.next_id) = none :=
    List.find?_eq_none.mpr fun s hs => by
      simp [Nat.ne_of_lt (hfresh s hs)]
  rw [hnone]
  simp [List.find?_cons, bytesHexUpper_of_decode h]

/-- C9 (witness): inserting lowercase digest `bc` and looking it up
returns the uppercase rendering `BC`. -/
theorem get_song_by_id_roundtrip_witness :
    ∃ d, insert_song exDB "B" "bc" = Except.ok (d, 2) ∧
      get_song_by_id d 2 = some ("B", strUpper "bc") ∧
      strUpper "bc" = bytesHexUpper [188] :=
  @get_song_by_id_roundtrip exDB "B" "bc" [188] (by decide) (by decide)
    (by decide)

/-- C10: every pair a successful `return_matches` emits is backed by a
stored fingerprint row whose hash decodes from some query hash (up to hex
case) with delta equal to the stored offset minus that hash's deduplicated
query offset; and the empty batch yields the empty result sequence. -/
theorem return_matches_sound (db : DBState) (hashes : List (String × Int)) :
    (∀ r, return_matches db hashes = some r →
      ∀ y ∈ r, ∃ f ∈ db.fingerprints, ∃ p ∈ hashes,
        hexToBytes (strUpper p.1) = some f.hash ∧
        ∃ q, lastOffset hashes (strUpper p.1) = some q ∧
          y = (f.song_id, f.offset - q)) ∧
    return_matches db [] = some [] :=
  ⟨fun _ h y hy => return_matches_sound_aux h y hy, rfl⟩

/-- C10 (witness): the result `(1, 7)` of querying `[("AA", 3)]` against
the example store is backed by the stored row `([170], 1, 10)`. -/
theorem return_matches_sound_witness :
    ∃ f ∈ exDB.fingerprints, ∃ p ∈ [(("AA" : String), (3 : Int))],
      hexToBytes (strUpper p.1) = some f.hash ∧
      ∃ q, lastOffset [(("AA" : String), (3 : Int))] (strUpper p.1) = some q ∧
        ((1 : Nat), (7 : Int)) = (f.song_id, f.offset - q) :=
  (return_matches_sound exDB [("AA", 3)]).1 [(1, 7)] (by decide) (1, 7)
    (by decide)

end Dejavu

